import Mathlib

/-!
# Verification of the username-candidate generator of `xl2usernames.py`

The core of the repository is the pure function
`generate_username_combinations(full_name)`: it lowercases, strips and
whitespace-splits the input into `parts`, accumulates a set of candidate
usernames (single parts, ordered pair concatenations in both orders,
increasing-index triple concatenations, initial-based combinations, and the
full concatenation), and returns the set as a sorted list.

Shallow embedding used here:

* A Python string is a `List Nat` of Unicode code points (`PyStr`).
* `str.lower` is modelled as the pointwise ASCII case map (on ASCII it
  coincides with Python's mapping; non-ASCII lowercasing is dropped, a
  narrowing noted where it matters).  `str.upper` is modelled faithfully on
  the whole Latin-1 range as a character-to-string map — Python's
  uppercasing may expand, `'\u00df'.upper() == "SS"` — and as the identity
  above code point 255.
* `str.strip()` / `str.split()` use Python's ASCII whitespace classes.
* Python string indexing `s[0]` is fallible: it is modelled by
  `firstChar? : PyStr → Option Nat`, and the generator consequently returns
  an `Option`, `none` standing for a raised `IndexError`.  Totality of the
  generator is then a theorem, not an assumption.
* The Python `set` + `sorted(list(...))` boundary is modelled by `List.dedup`
  followed by insertion sort under the lexicographic order on `List Nat`
  (which is exactly Python's string comparison order restricted to the
  embedded strings).
-/

/-- A Python string, as its list of Unicode code points. -/
abbrev PyStr := List Nat

/-- Pointwise action of Python's `str.lower` on one ASCII code point:
uppercase letters `A`–`Z` (65–90) are shifted to `a`–`z`. -/
def pyLowerChar (c : Nat) : Nat := if 65 ≤ c ∧ c ≤ 90 then c + 32 else c

/-- Action of Python's `str.upper` on one code point of the Latin-1 range.
The result is a string, since Unicode uppercasing may expand: ASCII
`a`–`z` (97–122) and the Latin-1 lowercase letters (224–254 except ÷)
shift down by 32, ß (223) expands to `"SS"`, µ (181) maps to Greek capital
mu (924) and ÿ (255) to Ÿ (376).  Code points above 255 are left
unchanged — a narrowing of Python's full Unicode table that is immaterial
below, where the map is only applied to Latin-1 and ASCII inputs. -/
def pyUpperChar (c : Nat) : PyStr :=
  if 97 ≤ c ∧ c ≤ 122 then [c - 32]
  else if c = 181 then [924]
  else if c = 223 then [83, 83]
  else if (224 ≤ c ∧ c ≤ 254) ∧ c ≠ 247 then [c - 32]
  else if c = 255 then [376]
  else [c]

/-- Python's ASCII whitespace class, as used by `str.strip()` and
`str.split()`: space, tab, newline, carriage return, vertical tab, form
feed. -/
def pyIsSpace (c : Nat) : Bool :=
  (c == 32) || (c == 9) || (c == 10) || (c == 13) || (c == 11) || (c == 12)

/-- Python `str.lower` on a whole string. -/
def pyLower (s : PyStr) : PyStr := s.map pyLowerChar

/-- Python `str.upper` on a whole string: per-character expansions are
concatenated. -/
def pyUpper (s : PyStr) : PyStr := s.flatMap pyUpperChar

/-- Python `str.strip()`: drop leading and trailing whitespace. -/
def pyStrip (s : PyStr) : PyStr :=
  ((s.dropWhile pyIsSpace).reverse.dropWhile pyIsSpace).reverse

/-- Accumulator-style worker for `str.split()`: `acc` holds the current
token, reversed. -/
def splitAux : PyStr → PyStr → List PyStr
  | [], acc => if acc = [] then [] else [acc.reverse]
  | c :: cs, acc =>
    if pyIsSpace c then
      if acc = [] then splitAux cs [] else acc.reverse :: splitAux cs []
    else splitAux cs (c :: acc)

/-- Python `str.split()` with no separator argument: split on runs of whitespace,
producing no empty tokens. -/
def pySplit (s : PyStr) : List PyStr := splitAux s []

/-- The expression `full_name.lower().strip().split()` — the `parts` list computed at the
top of `generate_username_combinations`. -/
def pyParts (full_name : PyStr) : List PyStr := pySplit (pyStrip (pyLower full_name))

/-- Indexing `parts[i]` for a non-negative in-range index (the only way the code uses
it). -/
def pget (parts : List PyStr) (i : Nat) : PyStr := parts.getD i []

/-- Indexing `parts[-1]` for a nonempty `parts` (the only way the code uses it). -/
def pgetLast (parts : List PyStr) : PyStr := parts.getLastD []

/-- Index pairs enumerated by
`for i in range(len(parts)): for j in range(i + 1, len(parts))`. -/
def pairIndices (n : Nat) : List (Nat × Nat) :=
  (List.range n).flatMap fun i =>
    (List.range' (i + 1) (n - (i + 1))).map fun j => (i, j)

/-- Index triples enumerated by `combinations(range(len(parts)), 3)`:
strictly increasing triples in lexicographic order. -/
def tripleIndices (n : Nat) : List (Nat × Nat × Nat) :=
  (List.range n).flatMap fun i =>
    (List.range' (i + 1) (n - (i + 1))).flatMap fun j =>
      (List.range' (j + 1) (n - (j + 1))).map fun k => (i, j, k)

/-- The two-part combinations added by the pair loop:
`parts[i] + parts[j]` and `parts[j] + parts[i]` for each `i < j`. -/
def pairCands (parts : List PyStr) : List PyStr :=
  (pairIndices parts.length).flatMap fun ij =>
    [pget parts ij.1 ++ pget parts ij.2, pget parts ij.2 ++ pget parts ij.1]

/-- The three-part combinations added when `len(parts) >= 3`:
`''.join([parts[i] for i in combo])` for each increasing triple `combo`. -/
def tripleCands (parts : List PyStr) : List PyStr :=
  if 3 ≤ parts.length then
    (tripleIndices parts.length).map fun t =>
      pget parts t.1 ++ pget parts t.2.1 ++ pget parts t.2.2
  else []

/-- Python string indexing `s[0]`: fails (raises) on an empty string. -/
def firstChar? : PyStr → Option Nat
  | [] => none
  | c :: _ => some c

/-- The initial-based candidates (`parts[0][0] + parts[-1]`,
`parts[0] + parts[-1][0]`, and for three or more parts
`parts[0] + parts[1][0] + parts[-1]`), sequenced in the `Option` monad since
each character access may fail. -/
def initialCands? (parts : List PyStr) : Option (List PyStr) :=
  if 2 ≤ parts.length then
    match firstChar? (pget parts 0), firstChar? (pgetLast parts) with
    | some c0, some cl =>
      let base := [[c0] ++ pgetLast parts, pget parts 0 ++ [cl]]
      if 3 ≤ parts.length then
        match firstChar? (pget parts 1) with
        | some c1 => some (base ++ [pget parts 0 ++ [c1] ++ pgetLast parts])
        | none => none
      else some base
    | _, _ => none
  else some []

/-- Every candidate the code inserts into the `usernames` set, in insertion
order (the set abstraction makes the order irrelevant). -/
def codeCandList (parts inits : List PyStr) : List PyStr :=
  parts ++ pairCands parts ++ tripleCands parts ++ inits ++ [parts.flatten]

/-- Insert into a lexicographically sorted list of strings. -/
def insertSorted (x : PyStr) : List PyStr → List PyStr
  | [] => [x]
  | y :: ys => if x ≤ y then x :: y :: ys else y :: insertSorted x ys

/-- Python's `sorted` on a list of strings (insertion sort under the
lexicographic code-point order, which is Python's string order). -/
def sortList : List PyStr → List PyStr
  | [] => []
  | x :: xs => insertSorted x (sortList xs)

/-- The embedding of `generate_username_combinations` (src/xl2usernames.py,
lines 16–56).  `none` models an uncaught `IndexError`; `some l` models a
normal return of the sorted duplicate-free list `l`. -/
def generate_username_combinations (full_name : PyStr) : Option (List PyStr) :=
  let parts := pyParts full_name
  if parts = [] then some []
  else
    match initialCands? parts with
    | none => none
    | some inits => some (sortList (codeCandList parts inits).dedup)

/-- Convert a Lean string literal to its code-point embedding (used only to
write concrete test inputs readably). -/
def strToCodes (s : String) : PyStr := s.data.map Char.toNat

/-! ## The reference algorithm of spec §4.1, written from the spec's words

These definitions follow the specification text, not the code; claim C1
compares the two. -/

/-- Spec §4.1 step 3: for every pair of positions `i < j`, both
concatenations. -/
def specPairs (parts : List PyStr) : Finset PyStr :=
  ((Finset.range parts.length ×ˢ Finset.range parts.length).filter
      fun p => p.1 < p.2).biUnion
    fun p => {pget parts p.1 ++ pget parts p.2, pget parts p.2 ++ pget parts p.1}

/-- Spec §4.1 step 4: for three or more parts, every increasing triple of
positions, concatenated in original relative order. -/
def specTriples (parts : List PyStr) : Finset PyStr :=
  if 3 ≤ parts.length then
    ((Finset.range parts.length ×ˢ Finset.range parts.length ×ˢ
        Finset.range parts.length).filter
        fun t => t.1 < t.2.1 ∧ t.2.1 < t.2.2).image
      fun t => pget parts t.1 ++ pget parts t.2.1 ++ pget parts t.2.2
  else ∅

/-- The `firstCharacter` operation of a name part, as used by the spec (parts are never
empty, spec §3). -/
def specFirstChar (t : PyStr) : Nat := t.headI

/-- Spec §4.1 steps 5 and 6: the initial-based candidates. -/
def specInitials (parts : List PyStr) : Finset PyStr :=
  (if 2 ≤ parts.length then
      {[specFirstChar (pget parts 0)] ++ pgetLast parts,
       pget parts 0 ++ [specFirstChar (pgetLast parts)]}
    else ∅) ∪
  (if 3 ≤ parts.length then
      {pget parts 0 ++ [specFirstChar (pget parts 1)] ++ pgetLast parts}
    else ∅)

/-- The candidate set prescribed by the reference algorithm of spec §4.1. -/
def specGenerate (full_name : PyStr) : Finset PyStr :=
  let parts := pyParts full_name
  if parts = [] then ∅
  else
    parts.toFinset ∪ specPairs parts ∪ specTriples parts ∪ specInitials parts ∪
      {parts.flatten}

/-! ## Character-level lemmas -/

/-- On an ASCII code point, lowercasing the uppercased character agrees with
lowercasing directly. -/
theorem map_pyLowerChar_pyUpperChar {c : Nat} (h : c < 128) :
    (pyUpperChar c).map pyLowerChar = [pyLowerChar c] := by
  unfold pyUpperChar pyLowerChar
  by_cases h1 : 97 ≤ c ∧ c ≤ 122
  · rw [if_pos h1]
    simp only [List.map_cons, List.map_nil]
    rw [if_pos (show 65 ≤ c - 32 ∧ c - 32 ≤ 90 from by omega),
      if_neg (show ¬ (65 ≤ c ∧ c ≤ 90) from by omega)]
    simp only [List.cons.injEq, and_true]
    omega
  · rw [if_neg h1, if_neg (show ¬ c = 181 from by omega),
      if_neg (show ¬ c = 223 from by omega),
      if_neg (show ¬ ((224 ≤ c ∧ c ≤ 254) ∧ c ≠ 247) from by omega),
      if_neg (show ¬ c = 255 from by omega)]
    simp

/-- On an all-ASCII string, lowercasing after uppercasing agrees with
lowercasing directly. -/
theorem map_pyLower_pyUpper_of_ascii :
    ∀ s : PyStr, (∀ c ∈ s, c < 128) →
      List.map pyLowerChar (s.flatMap pyUpperChar) = List.map pyLowerChar s := by
  intro s
  induction s with
  | nil => intro _; rfl
  | cons c cs ih =>
    intro h
    rw [List.flatMap_cons, List.map_append, List.map_cons,
      map_pyLowerChar_pyUpperChar (h c (by simp)),
      ih (fun x hx => h x (by simp [hx]))]
    rfl

/-- The ASCII lower-case map neither creates nor destroys whitespace. -/
theorem pyIsSpace_pyLowerChar (c : Nat) :
    pyIsSpace (pyLowerChar c) = pyIsSpace c := by
  unfold pyLowerChar pyIsSpace
  split_ifs with h
  · have h1 : ((c + 32 == 32) || (c + 32 == 9) || (c + 32 == 10) ||
        (c + 32 == 13) || (c + 32 == 11) || (c + 32 == 12)) = false := by
      simp only [Bool.or_eq_false_iff, beq_eq_false_iff_ne, ne_eq]
      omega
    have h2 : ((c == 32) || (c == 9) || (c == 10) || (c == 13) || (c == 11) ||
        (c == 12)) = false := by
      simp only [Bool.or_eq_false_iff, beq_eq_false_iff_ne, ne_eq]
      omega
    rw [h1, h2]
  · rfl

/-! ## Lemmas about `splitAux` / `pySplit` / `pyStrip` -/

/-- Python `str.split()` never produces an empty token. -/
theorem splitAux_ne_nil (l : PyStr) :
    ∀ (acc t : PyStr), t ∈ splitAux l acc → t ≠ [] := by
  induction l with
  | nil =>
    intro acc t ht
    by_cases h : acc = []
    · simp [splitAux, h] at ht
    · simp only [splitAux, if_neg h, List.mem_singleton] at ht
      subst ht
      simpa using h
  | cons c cs ih =>
    intro acc t ht
    by_cases hsp : pyIsSpace c = true
    · by_cases h : acc = []
      · simp only [splitAux, hsp, if_true, if_pos h] at ht
        exact ih [] t ht
      · simp only [splitAux, hsp, if_true, if_neg h, List.mem_cons] at ht
        rcases ht with rfl | ht
        · simpa using h
        · exact ih [] t ht
    · simp only [splitAux, hsp, Bool.false_eq_true, if_false] at ht
      exact ih (c :: acc) t ht

/-- On an all-whitespace string the split worker only flushes its
accumulator. -/
theorem splitAux_all_space (m : PyStr) :
    ∀ acc, (∀ c ∈ m, pyIsSpace c = true) →
      splitAux m acc = if acc = [] then [] else [acc.reverse] := by
  induction m with
  | nil => intro acc _; rfl
  | cons c cs ih =>
    intro acc h
    have hc : pyIsSpace c = true := h c (by simp)
    have hcs : ∀ x ∈ cs, pyIsSpace x = true := fun x hx => h x (by simp [hx])
    by_cases hacc : acc = [] <;> simp [splitAux, hc, hacc, ih [] hcs]

/-- A whitespace prefix does not change the split. -/
theorem splitAux_space_lead (pre m : PyStr)
    (hpre : ∀ c ∈ pre, pyIsSpace c = true) :
    splitAux (pre ++ m) [] = splitAux m [] := by
  induction pre with
  | nil => rfl
  | cons c cs ih =>
    have hc : pyIsSpace c = true := hpre c (by simp)
    simp only [List.cons_append, splitAux, hc, if_true, if_pos rfl]
    exact ih fun x hx => hpre x (by simp [hx])

/-- A whitespace suffix does not change the split. -/
theorem splitAux_space_suffix (m suf : PyStr)
    (hsuf : ∀ c ∈ suf, pyIsSpace c = true) :
    ∀ acc, splitAux (m ++ suf) acc = splitAux m acc := by
  induction m with
  | nil =>
    intro acc
    rw [List.nil_append, splitAux_all_space suf acc hsuf]
    rfl
  | cons c cs ih =>
    intro acc
    by_cases hc : pyIsSpace c = true
    · simp only [List.cons_append, splitAux, hc, if_true]
      by_cases hacc : acc = [] <;> simp [hacc, ih]
    · simp only [List.cons_append, splitAux, hc, Bool.false_eq_true, if_false]
      exact ih (c :: acc)

/-- With a nonempty accumulator the split worker returns at least one
token. -/
theorem splitAux_ne_nil_of_acc (l : PyStr) :
    ∀ acc, acc ≠ [] → splitAux l acc ≠ [] := by
  induction l with
  | nil => intro acc h; simp [splitAux, h]
  | cons c cs ih =>
    intro acc h
    by_cases hc : pyIsSpace c = true
    · simp [splitAux, hc, h]
    · simp only [splitAux, hc, Bool.false_eq_true, if_false]
      exact ih (c :: acc) (by simp)

/-- Python `str.split()` returns the empty list exactly on all-whitespace input. -/
theorem pySplit_eq_nil_iff (l : PyStr) :
    pySplit l = [] ↔ ∀ c ∈ l, pyIsSpace c = true := by
  constructor
  · unfold pySplit
    induction l with
    | nil => intro _ c hc; simp at hc
    | cons c cs ih =>
      intro h x hx
      by_cases hc : pyIsSpace c = true
      · simp only [splitAux, hc, if_true, if_pos rfl] at h
        rcases List.mem_cons.mp hx with rfl | hx
        · exact hc
        · exact ih h x hx
      · simp only [splitAux, hc, Bool.false_eq_true, if_false] at h
        exact absurd h (splitAux_ne_nil_of_acc cs (c :: []) (by simp))
  · intro h
    unfold pySplit
    rw [splitAux_all_space l [] h]
    rfl

/-- Python `str.strip()` removes a whitespace prefix and a whitespace suffix and
keeps the middle intact. -/
theorem pyStrip_decomp (l : PyStr) :
    ∃ pre suf, (∀ c ∈ pre, pyIsSpace c = true) ∧ (∀ c ∈ suf, pyIsSpace c = true) ∧
      l = pre ++ (pyStrip l ++ suf) := by
  refine ⟨l.takeWhile pyIsSpace,
    ((l.dropWhile pyIsSpace).reverse.takeWhile pyIsSpace).reverse, ?_, ?_, ?_⟩
  · intro c hc
    exact List.mem_takeWhile_imp hc
  · intro c hc
    rw [List.mem_reverse] at hc
    exact List.mem_takeWhile_imp hc
  · conv_lhs => rw [← List.takeWhile_append_dropWhile (p := pyIsSpace) (l := l)]
    congr 1
    unfold pyStrip
    rw [← List.reverse_append, List.takeWhile_append_dropWhile,
      List.reverse_reverse]

/-- Stripping before splitting changes nothing: `split()` already ignores
outer whitespace. -/
theorem pySplit_pyStrip (l : PyStr) : pySplit (pyStrip l) = pySplit l := by
  obtain ⟨pre, suf, hpre, hsuf, hdec⟩ := pyStrip_decomp l
  conv_rhs => rw [hdec]
  unfold pySplit
  rw [splitAux_space_lead pre _ hpre, splitAux_space_suffix _ suf hsuf]

/-- The `parts` list is empty exactly when the input is empty or
all-whitespace. -/
theorem pyParts_eq_nil_iff (s : PyStr) :
    pyParts s = [] ↔ ∀ c ∈ s, pyIsSpace c = true := by
  unfold pyParts
  rw [pySplit_pyStrip, pySplit_eq_nil_iff]
  unfold pyLower
  constructor
  · intro h c hc
    have := h (pyLowerChar c) (List.mem_map_of_mem pyLowerChar hc)
    rwa [pyIsSpace_pyLowerChar] at this
  · intro h x hx
    obtain ⟨c, hc, rfl⟩ := List.mem_map.mp hx
    rw [pyIsSpace_pyLowerChar]
    exact h c hc

/-- Name parts are never empty strings. -/
theorem mem_pyParts_ne_nil {s : PyStr} {t : PyStr} (ht : t ∈ pyParts s) :
    t ≠ [] := by
  unfold pyParts pySplit at ht
  exact splitAux_ne_nil _ _ t ht

/-! ## Lemmas about indexing -/

/-- In-range positive indexing lands in the list. -/
theorem pget_mem {parts : List PyStr} {i : Nat} (h : i < parts.length) :
    pget parts i ∈ parts := by
  unfold pget
  rw [List.getD_eq_getElem _ _ h]
  exact List.getElem_mem h

/-- The last element of a nonempty list, with a default, lands in the list. -/
theorem getLastD_mem : ∀ (l : List PyStr) (d : PyStr), l ≠ [] → l.getLastD d ∈ l
  | [a], _, _ => by simp
  | a :: b :: t, d, _ => by
    rw [List.getLastD_cons]
    exact List.mem_cons_of_mem a (getLastD_mem (b :: t) a (by simp))

/-- Indexing `parts[-1]` on a nonempty list lands in the list. -/
theorem pgetLast_mem {parts : List PyStr} (h : parts ≠ []) :
    pgetLast parts ∈ parts := getLastD_mem parts [] h

/-- On a nonempty string, `s[0]` succeeds and returns the head. -/
theorem firstChar_eq_of_ne_nil {t : PyStr} (h : t ≠ []) :
    firstChar? t = some t.headI := by
  cases t with
  | nil => exact absurd rfl h
  | cons c cs => rfl

/-! ## The happy path of the generator -/

/-- The initial-based candidates, as pure values (valid when all parts are
nonempty). -/
def initialCandsT (parts : List PyStr) : List PyStr :=
  if 2 ≤ parts.length then
    [[(pget parts 0).headI] ++ pgetLast parts, pget parts 0 ++ [(pgetLast parts).headI]] ++
      (if 3 ≤ parts.length then
          [pget parts 0 ++ [(pget parts 1).headI] ++ pgetLast parts]
        else [])
  else []

/-- When every part is nonempty, the initial-based character accesses all
succeed. -/
theorem initialCands_eq_some {parts : List PyStr}
    (hne : ∀ t ∈ parts, t ≠ []) :
    initialCands? parts = some (initialCandsT parts) := by
  unfold initialCands? initialCandsT
  by_cases h2 : 2 ≤ parts.length
  · have hp : parts ≠ [] := by
      intro h
      rw [h] at h2
      simp at h2
    have h0 : firstChar? (pget parts 0) = some (pget parts 0).headI :=
      firstChar_eq_of_ne_nil (hne _ (pget_mem (by omega)))
    have hl : firstChar? (pgetLast parts) = some (pgetLast parts).headI :=
      firstChar_eq_of_ne_nil (hne _ (pgetLast_mem hp))
    by_cases h3 : 3 ≤ parts.length
    · have h1 : firstChar? (pget parts 1) = some (pget parts 1).headI :=
        firstChar_eq_of_ne_nil (hne _ (pget_mem (by omega)))
      simp only [if_pos h2, if_pos h3, h0, hl, h1]
    · simp only [if_pos h2, if_neg h3, h0, hl, List.append_nil]
  · simp only [if_neg h2]

/-- On any input whose `parts` list is nonempty, the generator returns
normally, with the sorted deduplicated candidate list. -/
theorem generate_eq_some {s : PyStr} (h : pyParts s ≠ []) :
    generate_username_combinations s =
      some (sortList (codeCandList (pyParts s)
        (initialCandsT (pyParts s))).dedup) := by
  unfold generate_username_combinations
  rw [if_neg h, initialCands_eq_some fun t ht => mem_pyParts_ne_nil ht]

/-! ## Lemmas about the sorting boundary -/

/-- Insertion produces a permutation of consing. -/
theorem insertSorted_perm (x : PyStr) (l : List PyStr) :
    (insertSorted x l).Perm (x :: l) := by
  induction l with
  | nil => exact List.Perm.refl _
  | cons y ys ih =>
    by_cases h : x ≤ y
    · simp [insertSorted, h]
    · simp only [insertSorted, h, if_false]
      exact ((ih.cons y).trans (List.Perm.swap x y ys)).symm.symm

/-- Sorting permutes the list. -/
theorem sortList_perm (l : List PyStr) : (sortList l).Perm l := by
  induction l with
  | nil => exact List.Perm.refl _
  | cons x xs ih => exact (insertSorted_perm x (sortList xs)).trans (ih.cons x)

/-- Sorting preserves membership. -/
theorem mem_sortList {x : PyStr} {l : List PyStr} : x ∈ sortList l ↔ x ∈ l :=
  (sortList_perm l).mem_iff

/-- Insertion into a sorted list keeps it sorted. -/
theorem insertSorted_sorted (x : PyStr) {l : List PyStr}
    (hl : l.Sorted (· ≤ ·)) : (insertSorted x l).Sorted (· ≤ ·) := by
  induction l with
  | nil => simp [insertSorted]
  | cons y ys ih =>
    rw [List.sorted_cons] at hl
    by_cases h : x ≤ y
    · rw [insertSorted, if_pos h, List.sorted_cons]
      refine ⟨fun b hb => ?_, List.sorted_cons.mpr hl⟩
      rcases List.mem_cons.mp hb with rfl | hb
      · exact h
      · exact le_trans h (hl.1 b hb)
    · rw [insertSorted, if_neg h, List.sorted_cons]
      refine ⟨fun b hb => ?_, ih hl.2⟩
      rcases List.mem_cons.mp ((insertSorted_perm x ys).mem_iff.mp hb) with rfl | hb
      · exact le_of_not_le h
      · exact hl.1 b hb

/-- The output of `sorted` is sorted. -/
theorem sortList_sorted (l : List PyStr) : (sortList l).Sorted (· ≤ ·) := by
  induction l with
  | nil => simp [sortList]
  | cons x xs ih => exact insertSorted_sorted x ih

/-- The generator's returned list, on the happy path: sorted set of the
inserted candidates. -/
theorem toFinset_sortList_dedup (l : List PyStr) :
    (sortList l.dedup).toFinset = l.toFinset := by
  rw [List.toFinset_eq_of_perm _ _ (sortList_perm l.dedup)]
  exact List.toFinset.ext fun x => List.mem_dedup

/-- The returned list has no duplicates. -/
theorem nodup_sortList_dedup (l : List PyStr) : (sortList l.dedup).Nodup :=
  ((sortList_perm l.dedup).symm.nodup_iff).mp l.nodup_dedup

/-- The returned list is strictly sorted. -/
theorem sortList_dedup_sorted_lt (l : List PyStr) :
    (sortList l.dedup).Sorted (· < ·) := by
  have hs := sortList_sorted l.dedup
  have hn := nodup_sortList_dedup l
  unfold List.Sorted at hs ⊢
  exact ((hs.and hn).imp fun h => lt_of_le_of_ne h.1 h.2)

/-- The length of the returned list is the number of distinct inserted
candidates. -/
theorem length_sortList_dedup (l : List PyStr) :
    (sortList l.dedup).length = l.toFinset.card := by
  rw [← toFinset_sortList_dedup l,
    List.toFinset_card_of_nodup (nodup_sortList_dedup l)]

/-! ## Membership characterizations -/

/-- The nested pair loop enumerates exactly the index pairs `i < j < n`. -/
theorem mem_pairIndices {n i j : Nat} :
    (i, j) ∈ pairIndices n ↔ i < j ∧ j < n := by
  unfold pairIndices
  simp only [List.mem_flatMap, List.mem_map, List.mem_range, List.mem_range'_1]
  constructor
  · rintro ⟨a, ha, b, ⟨hb1, hb2⟩, heq⟩
    simp only [Prod.mk.injEq] at heq
    obtain ⟨rfl, rfl⟩ := heq
    omega
  · rintro ⟨hij, hjn⟩
    exact ⟨i, by omega, j, ⟨by omega, by omega⟩, rfl⟩

/-- The enumeration `combinations(range(n), 3)` yields exactly the strictly increasing
index triples below `n`. -/
theorem mem_tripleIndices {n i j k : Nat} :
    (i, j, k) ∈ tripleIndices n ↔ i < j ∧ j < k ∧ k < n := by
  unfold tripleIndices
  simp only [List.mem_flatMap, List.mem_map, List.mem_range, List.mem_range'_1]
  constructor
  · rintro ⟨a, ha, b, ⟨hb1, hb2⟩, c, ⟨hc1, hc2⟩, heq⟩
    simp only [Prod.mk.injEq] at heq
    obtain ⟨rfl, rfl, rfl⟩ := heq
    omega
  · rintro ⟨hij, hjk, hkn⟩
    exact ⟨i, by omega, j, ⟨by omega, by omega⟩, k, ⟨by omega, by omega⟩, rfl⟩

/-- What the pair loop adds to the set. -/
theorem mem_pairCands {parts : List PyStr} {x : PyStr} :
    x ∈ pairCands parts ↔
      ∃ i j, i < j ∧ j < parts.length ∧
        (x = pget parts i ++ pget parts j ∨ x = pget parts j ++ pget parts i) := by
  unfold pairCands
  simp only [List.mem_flatMap]
  constructor
  · rintro ⟨⟨i, j⟩, hij, hx⟩
    rw [mem_pairIndices] at hij
    refine ⟨i, j, hij.1, hij.2, ?_⟩
    simpa using hx
  · rintro ⟨i, j, h1, h2, hx⟩
    refine ⟨(i, j), mem_pairIndices.mpr ⟨h1, h2⟩, ?_⟩
    simpa using hx

/-- What the triple step adds to the set. -/
theorem mem_tripleCands {parts : List PyStr} {x : PyStr} :
    x ∈ tripleCands parts ↔
      3 ≤ parts.length ∧ ∃ i j k, i < j ∧ j < k ∧ k < parts.length ∧
        x = pget parts i ++ pget parts j ++ pget parts k := by
  unfold tripleCands
  by_cases h3 : 3 ≤ parts.length
  · rw [if_pos h3]
    simp only [List.mem_map, h3, true_and]
    constructor
    · rintro ⟨⟨i, j, k⟩, ht, rfl⟩
      rw [mem_tripleIndices] at ht
      exact ⟨i, j, k, ht.1, ht.2.1, ht.2.2, rfl⟩
    · rintro ⟨i, j, k, h1, h2, hk, rfl⟩
      exact ⟨(i, j, k), mem_tripleIndices.mpr ⟨h1, h2, hk⟩, rfl⟩
  · rw [if_neg h3]
    simp [h3]

/-- The spec's step-3 set contains exactly what the code's pair loop adds. -/
theorem mem_specPairs {parts : List PyStr} {x : PyStr} :
    x ∈ specPairs parts ↔ x ∈ pairCands parts := by
  rw [mem_pairCands]
  unfold specPairs
  simp only [Finset.mem_biUnion, Finset.mem_filter, Finset.mem_product,
    Finset.mem_range, Finset.mem_insert, Finset.mem_singleton]
  constructor
  · rintro ⟨⟨i, j⟩, ⟨⟨hi, hj⟩, hij⟩, hx⟩
    exact ⟨i, j, hij, hj, hx⟩
  · rintro ⟨i, j, h1, h2, hx⟩
    exact ⟨(i, j), ⟨⟨by omega, h2⟩, h1⟩, hx⟩

/-- The spec's step-4 set contains exactly what the code's triple step
adds. -/
theorem mem_specTriples {parts : List PyStr} {x : PyStr} :
    x ∈ specTriples parts ↔ x ∈ tripleCands parts := by
  rw [mem_tripleCands]
  unfold specTriples
  by_cases h3 : 3 ≤ parts.length
  · rw [if_pos h3]
    simp only [Finset.mem_image, Finset.mem_filter, Finset.mem_product,
      Finset.mem_range, h3, true_and]
    constructor
    · rintro ⟨⟨i, j, k⟩, ⟨⟨hi, hj, hk⟩, hij, hjk⟩, rfl⟩
      exact ⟨i, j, k, hij, hjk, hk, rfl⟩
    · rintro ⟨i, j, k, h1, h2, hk, rfl⟩
      refine ⟨(i, j, k), ⟨⟨?_, ?_, ?_⟩, ?_, ?_⟩, rfl⟩ <;> dsimp only <;> omega
  · rw [if_neg h3]
    simp [h3]

/-- The spec's steps 5–6 set contains exactly the code's initial-based
candidates. -/
theorem mem_specInitials {parts : List PyStr} {x : PyStr} :
    x ∈ specInitials parts ↔ x ∈ initialCandsT parts := by
  unfold specInitials initialCandsT specFirstChar
  by_cases h2 : 2 ≤ parts.length
  · by_cases h3 : 3 ≤ parts.length
    · simp [h2, h3, or_assoc]
    · simp [h2, h3]
  · have h3 : ¬ 3 ≤ parts.length := by omega
    simp [h2, h3]

/-! ## Counting the enumerated candidates -/

/-- List sum over `List.range` as a finite sum. -/
theorem list_sum_range_map (f : Nat → Nat) (n : Nat) :
    ((List.range n).map f).sum = ∑ i ∈ Finset.range n, f i := by
  induction n with
  | zero => rfl
  | succ n ih =>
    rw [List.range_succ, List.map_append, List.sum_append,
      Finset.sum_range_succ, ih]
    simp

/-- List sum over `List.range'` as a shifted finite sum. -/
theorem list_sum_range'_map (f : Nat → Nat) :
    ∀ s n, ((List.range' s n).map f).sum = ∑ t ∈ Finset.range n, f (s + t) := by
  intro s n
  induction n generalizing s with
  | zero => rfl
  | succ n ih =>
    rw [List.range'_succ, List.map_cons, List.sum_cons, ih (s + 1),
      Finset.sum_range_succ']
    have h : ∀ t : Nat, s + 1 + t = s + (t + 1) := by omega
    simp only [h, Nat.add_zero]
    exact Nat.add_comm _ _

/-- The inner loop of the pair enumeration contributes `n - (i+1)` pairs per
outer index. -/
theorem length_pairIndices (n : Nat) :
    (pairIndices n).length = ∑ i ∈ Finset.range n, (n - (i + 1)) := by
  unfold pairIndices
  rw [List.length_flatMap]
  simp only [Function.comp_def, List.length_map, List.length_range']
  exact list_sum_range_map _ n

/-- Twice the number of enumerated index pairs is `n * (n - 1)`. -/
theorem two_mul_length_pairIndices (n : Nat) :
    2 * (pairIndices n).length = n * (n - 1) := by
  rw [length_pairIndices]
  rw [Finset.sum_congr rfl fun i _ => show n - (i + 1) = n - 1 - i by omega]
  rw [show (∑ i ∈ Finset.range n, (n - 1 - i)) = ∑ i ∈ Finset.range n, i from
    Finset.sum_range_reflect (fun i => i) n]
  rw [Nat.mul_comm]
  exact Finset.sum_range_id_mul_two n

/-- Gauss sum, stated through the binomial coefficient. -/
theorem sum_range_sub_one (m : Nat) :
    ∑ t ∈ Finset.range m, (m - 1 - t) = Nat.choose m 2 := by
  rw [Finset.sum_range_reflect (fun i => i) m, Nat.choose_two_right]
  exact Finset.sum_range_id m

/-- Hockey-stick identity for column 2. -/
theorem sum_range_choose_two (n : Nat) :
    ∑ t ∈ Finset.range n, Nat.choose t 2 = Nat.choose n 3 := by
  induction n with
  | zero => rfl
  | succ n ih =>
    rw [Finset.sum_range_succ, ih, Nat.add_comm, ← Nat.choose_succ_succ' n 2]

/-- The enumeration `combinations(range(n), 3)` has exactly `C(n, 3)` elements. -/
theorem length_tripleIndices (n : Nat) :
    (tripleIndices n).length = Nat.choose n 3 := by
  unfold tripleIndices
  rw [List.length_flatMap]
  simp only [Function.comp_def, List.length_flatMap, List.length_map,
    List.length_range']
  rw [list_sum_range_map]
  have hinner : ∀ i ∈ Finset.range n,
      ((List.range' (i + 1) (n - (i + 1))).map fun j => n - (j + 1)).sum =
        Nat.choose (n - 1 - i) 2 := by
    intro i _
    rw [list_sum_range'_map]
    rw [show n - (i + 1) = n - 1 - i from by omega]
    rw [Finset.sum_congr rfl fun t ht => show n - (i + 1 + t + 1) =
      (n - 1 - i) - 1 - t from by omega]
    exact sum_range_sub_one (n - 1 - i)
  rw [Finset.sum_congr rfl hinner]
  rw [show (∑ i ∈ Finset.range n, Nat.choose (n - 1 - i) 2) =
      ∑ i ∈ Finset.range n, Nat.choose i 2 from
    Finset.sum_range_reflect (fun t => Nat.choose t 2) n]
  exact sum_range_choose_two n

/-- A two-element burst per pair: the pair loop inserts `2 · #pairs`
strings. -/
theorem sum_map_length_two (f : Nat × Nat → List PyStr)
    (hf : ∀ x, (f x).length = 2) :
    ∀ l : List (Nat × Nat), (List.map (List.length ∘ f) l).sum = 2 * l.length := by
  intro l
  induction l with
  | nil => rfl
  | cons a t ih =>
    simp only [List.map_cons, List.sum_cons, List.length_cons,
      Function.comp_apply, hf, ih]
    omega

/-- A two-element burst per pair: the pair loop inserts twice the number of
index pairs. -/
theorem length_pairCands (parts : List PyStr) :
    (pairCands parts).length = 2 * (pairIndices parts.length).length := by
  unfold pairCands
  rw [List.length_flatMap]
  exact sum_map_length_two
    (fun ij => [pget parts ij.1 ++ pget parts ij.2,
      pget parts ij.2 ++ pget parts ij.1]) (fun x => rfl) _

/-- Total size bound on the inserted-candidate list. -/
theorem length_codeCandList_le (parts : List PyStr) :
    (codeCandList parts (initialCandsT parts)).length ≤
      parts.length + parts.length * (parts.length - 1) +
        Nat.choose parts.length 3 + 4 := by
  unfold codeCandList
  simp only [List.length_append, List.length_cons, List.length_nil]
  have hp : 2 * (pairIndices parts.length).length =
      parts.length * (parts.length - 1) := two_mul_length_pairIndices _
  have hpc := length_pairCands parts
  have ht : (tripleCands parts).length ≤ Nat.choose parts.length 3 := by
    unfold tripleCands
    by_cases h3 : 3 ≤ parts.length
    · rw [if_pos h3, List.length_map, length_tripleIndices]
    · rw [if_neg h3]
      exact Nat.zero_le _
  have hi : (initialCandsT parts).length ≤ 3 := by
    unfold initialCandsT
    by_cases h2 : 2 ≤ parts.length
    · by_cases h3 : 3 ≤ parts.length
      · rw [if_pos h2, if_pos h3]
        rfl
      · rw [if_pos h2, if_neg h3]
        simp
    · rw [if_neg h2]
      simp
  omega

/-! ## Assorted helper lemmas for the claims -/

/-- The generator only looks at the input through `parts`. -/
theorem generate_congr {s1 s2 : PyStr} (h : pyParts s1 = pyParts s2) :
    generate_username_combinations s1 = generate_username_combinations s2 := by
  unfold generate_username_combinations
  rw [h]

/-- Membership in the inserted-candidate list, rule by rule. -/
theorem mem_codeCandList {parts inits : List PyStr} {x : PyStr} :
    x ∈ codeCandList parts inits ↔
      x ∈ parts ∨ x ∈ pairCands parts ∨ x ∈ tripleCands parts ∨ x ∈ inits ∨
        x = parts.flatten := by
  unfold codeCandList
  simp [List.mem_append, or_assoc]

/-- Membership in the returned list is membership among the inserted
candidates. -/
theorem mem_generate_result {parts inits : List PyStr} {x : PyStr} :
    x ∈ sortList (codeCandList parts inits).dedup ↔
      x ∈ codeCandList parts inits := by
  rw [mem_sortList, List.mem_dedup]

/-! ## The claims -/

/-- C2: `generate_username_combinations` is total: on every input string —
empty, all-whitespace, or otherwise — no indexing error occurs and a result
is returned. -/
theorem generate_total (s : PyStr) :
    (generate_username_combinations s).isSome = true := by
  by_cases h : pyParts s = []
  · unfold generate_username_combinations
    rw [if_pos h]
    rfl
  · rw [generate_eq_some h]
    rfl

/-- C1: on every input, the generator returns normally and the returned
candidates are, as a set, exactly those prescribed by the reference
algorithm of spec §4.1. -/
theorem generate_eq_spec (s : PyStr) :
    ∃ l, generate_username_combinations s = some l ∧
      l.toFinset = specGenerate s := by
  by_cases h : pyParts s = []
  · refine ⟨[], ?_, ?_⟩
    · unfold generate_username_combinations
      rw [if_pos h]
    · unfold specGenerate
      rw [if_pos h]
      rfl
  · refine ⟨_, generate_eq_some h, ?_⟩
    rw [toFinset_sortList_dedup]
    unfold specGenerate
    rw [if_neg h]
    ext x
    simp only [codeCandList, List.toFinset_append, Finset.mem_union,
      List.mem_toFinset, Finset.mem_singleton, mem_specPairs, mem_specTriples,
      mem_specInitials, List.mem_singleton]

/-- C10: whenever the generator returns a list, that list is sorted in
strictly increasing lexicographic order, hence duplicate-free. -/
theorem generate_sorted_nodup (s : PyStr) (l : List PyStr)
    (h : generate_username_combinations s = some l) :
    l.Sorted (· < ·) ∧ l.Nodup := by
  by_cases hp : pyParts s = []
  · unfold generate_username_combinations at h
    rw [if_pos hp] at h
    obtain rfl := (Option.some.inj h).symm
    exact ⟨List.sorted_nil, List.nodup_nil⟩
  · rw [generate_eq_some hp] at h
    obtain rfl := (Option.some.inj h)
    exact ⟨sortList_dedup_sorted_lt _, nodup_sortList_dedup _⟩

/-- Witness for C10 at the concrete input `"b a"`. -/
theorem generate_sorted_nodup_witness :
    List.Sorted (· < ·) [strToCodes "a", strToCodes "ab", strToCodes "b",
      strToCodes "ba"] ∧
    List.Nodup [strToCodes "a", strToCodes "ab", strToCodes "b",
      strToCodes "ba"] :=
  generate_sorted_nodup (strToCodes "b a") _ (by decide)

/-- C6: an input that normalizes to a single token yields exactly that
token. -/
theorem generate_single_token (s t : PyStr) (h : pyParts s = [t]) :
    generate_username_combinations s = some [t] := by
  have hne : pyParts s ≠ [] := by
    rw [h]
    simp
  rw [generate_eq_some hne, h]
  have hc : codeCandList [t] (initialCandsT [t]) = [t, t] := by
    unfold codeCandList
    have h1 : pairCands [t] = [] := rfl
    have h2 : tripleCands [t] = [] := rfl
    have h3 : initialCandsT [t] = [] := rfl
    rw [h1, h2, h3]
    simp
  rw [hc]
  rw [show ([t, t] : List PyStr).dedup = [t] from by
    rw [List.dedup_cons_of_mem (by simp)]
    simp]
  rfl

/-- Witness for C6 at the concrete input `"Bob"`. -/
theorem generate_single_token_witness :
    generate_username_combinations (strToCodes "Bob") = some [strToCodes "bob"] :=
  generate_single_token (strToCodes "Bob") (strToCodes "bob") (by decide)

/-- C8: the generator returns the empty list exactly when the input is empty
or all-whitespace; any input with a non-whitespace character yields at least
one candidate. -/
theorem generate_empty_iff (s : PyStr) :
    (generate_username_combinations s = some [] ↔ s.all pyIsSpace = true) ∧
    (s.all pyIsSpace = false →
      ∃ l x, generate_username_combinations s = some l ∧ x ∈ l) := by
  have hiff := pyParts_eq_nil_iff s
  constructor
  · constructor
    · intro h
      rw [List.all_eq_true]
      refine hiff.mp ?_
      by_contra hp
      rw [generate_eq_some hp] at h
      have hm : (pyParts s).flatten ∈ sortList (codeCandList (pyParts s)
          (initialCandsT (pyParts s))).dedup :=
        mem_generate_result.mpr
          (mem_codeCandList.mpr (Or.inr (Or.inr (Or.inr (Or.inr rfl)))))
      rw [Option.some.inj h] at hm
      simp at hm
    · intro h
      unfold generate_username_combinations
      rw [if_pos (hiff.mpr (List.all_eq_true.mp h))]
  · intro h
    have hp : pyParts s ≠ [] := by
      intro hc
      have := List.all_eq_true.mpr (hiff.mp hc)
      rw [this] at h
      simp at h
    exact ⟨_, (pyParts s).flatten, generate_eq_some hp,
      mem_generate_result.mpr
        (mem_codeCandList.mpr (Or.inr (Or.inr (Or.inr (Or.inr rfl)))))⟩

/-- Witness for C8 at the concrete inputs `"   "` and `" a "`. -/
theorem generate_empty_iff_witness :
    generate_username_combinations (strToCodes "   ") = some [] ∧
    ∃ l x, generate_username_combinations (strToCodes " a ") = some l ∧ x ∈ l :=
  ⟨(generate_empty_iff (strToCodes "   ")).1.mpr (by decide),
   (generate_empty_iff (strToCodes " a ")).2 (by decide)⟩

/-- On an all-ASCII string, normalization into `parts` is unchanged by
`str.upper`. -/
theorem pyParts_pyUpper_of_ascii {s : PyStr} (h : ∀ c ∈ s, c < 128) :
    pyParts (pyUpper s) = pyParts s := by
  unfold pyParts pyLower pyUpper
  rw [map_pyLower_pyUpper_of_ascii s h]

/-- C4 as stated fails on the program: Unicode uppercasing is not
one-to-one — ß uppercases to `"SS"` — so the result at ß differs from the
result at its uppercasing. -/
theorem generate_case_claim_cex :
    pyUpper (strToCodes "ß") = strToCodes "SS" ∧
    generate_username_combinations (strToCodes "ß") = some [strToCodes "ß"] ∧
    generate_username_combinations (pyUpper (strToCodes "ß")) =
      some [strToCodes "ss"] ∧
    generate_username_combinations (pyUpper (strToCodes "ß")) ≠
      generate_username_combinations (strToCodes "ß") :=
  ⟨by decide, by decide, by decide, by decide⟩

/-- C4 (amended): padding with outer whitespace never changes the result,
and uppercasing changes nothing on ASCII inputs, on which Python's case
maps are one-to-one. -/
theorem generate_case_whitespace_amended (s : PyStr) :
    generate_username_combinations (strToCodes "  " ++ s ++ strToCodes "  ") =
      generate_username_combinations s ∧
    ((∀ c ∈ s, c < 128) →
      generate_username_combinations (pyUpper s) =
        generate_username_combinations s) := by
  constructor
  · apply generate_congr
    have hsp : ∀ c ∈ ([32, 32] : PyStr), pyIsSpace c = true := by decide
    unfold pyParts pyLower
    rw [pySplit_pyStrip, pySplit_pyStrip, List.map_append, List.map_append]
    rw [show (strToCodes "  ").map pyLowerChar = ([32, 32] : PyStr) from rfl]
    unfold pySplit
    rw [splitAux_space_suffix _ _ hsp, splitAux_space_lead _ _ hsp]
  · intro h
    exact generate_congr (pyParts_pyUpper_of_ascii h)

/-- Witness for the amended C4 at the concrete input `"Ed Lee"`. -/
theorem generate_case_whitespace_amended_witness :
    generate_username_combinations
        (strToCodes "  " ++ strToCodes "Ed Lee" ++ strToCodes "  ") =
      generate_username_combinations (strToCodes "Ed Lee") ∧
    generate_username_combinations (pyUpper (strToCodes "Ed Lee")) =
      generate_username_combinations (strToCodes "Ed Lee") :=
  ⟨(generate_case_whitespace_amended (strToCodes "Ed Lee")).1,
   (generate_case_whitespace_amended (strToCodes "Ed Lee")).2 (by decide)⟩

/-- C7: on a two-token input the result contains both tokens, both
concatenation orders, and both initial-based combinations. -/
theorem generate_two_token_superset (s a b : PyStr) (h : pyParts s = [a, b]) :
    ∃ l, generate_username_combinations s = some l ∧
      a ∈ l ∧ b ∈ l ∧ a ++ b ∈ l ∧ b ++ a ∈ l ∧
      [a.headI] ++ b ∈ l ∧ a ++ [b.headI] ∈ l := by
  have hne : pyParts s ≠ [] := by
    rw [h]
    simp
  refine ⟨_, generate_eq_some hne, ?_⟩
  rw [h]
  have hinit : initialCandsT [a, b] = [[a.headI] ++ b, a ++ [b.headI]] := rfl
  refine ⟨?_, ?_, ?_, ?_, ?_, ?_⟩ <;>
    refine mem_generate_result.mpr (mem_codeCandList.mpr ?_)
  · exact Or.inl (by simp)
  · exact Or.inl (by simp)
  · exact Or.inr (Or.inl (mem_pairCands.mpr ⟨0, 1, by omega, by simp, Or.inl rfl⟩))
  · exact Or.inr (Or.inl (mem_pairCands.mpr ⟨0, 1, by omega, by simp, Or.inr rfl⟩))
  · refine Or.inr (Or.inr (Or.inr (Or.inl ?_)))
    rw [hinit]
    simp
  · refine Or.inr (Or.inr (Or.inr (Or.inl ?_)))
    rw [hinit]
    simp

/-- Witness for C7 at the concrete input `"John Smith"`. -/
theorem generate_two_token_superset_witness :
    ∃ l, generate_username_combinations (strToCodes "John Smith") = some l ∧
      strToCodes "john" ∈ l ∧ strToCodes "smith" ∈ l ∧
      strToCodes "john" ++ strToCodes "smith" ∈ l ∧
      strToCodes "smith" ++ strToCodes "john" ∈ l ∧
      [(strToCodes "john").headI] ++ strToCodes "smith" ∈ l ∧
      strToCodes "john" ++ [(strToCodes "smith").headI] ∈ l :=
  generate_two_token_superset (strToCodes "John Smith") (strToCodes "john")
    (strToCodes "smith") (by decide)

/-- C3: for three or more tokens, the triple rule puts
`parts[i] + parts[j] + parts[k]` into the result for every increasing index
triple, contributes nothing else, and concretely
`generate("Alice Bob Carol")` contains `"alicebobcarol"`. -/
theorem generate_triple_rule_order (s : PyStr) (l : List PyStr)
    (h3 : 3 ≤ (pyParts s).length)
    (h : generate_username_combinations s = some l) :
    (∀ i j k, i < j → j < k → k < (pyParts s).length →
        pget (pyParts s) i ++ pget (pyParts s) j ++ pget (pyParts s) k ∈ l) ∧
    (∀ x ∈ tripleCands (pyParts s), ∃ i j k, i < j ∧ j < k ∧
        k < (pyParts s).length ∧
        x = pget (pyParts s) i ++ pget (pyParts s) j ++ pget (pyParts s) k) ∧
    strToCodes "alicebobcarol" ∈
      (generate_username_combinations (strToCodes "Alice Bob Carol")).getD [] := by
  have hne : pyParts s ≠ [] := by
    intro hc
    rw [hc] at h3
    simp at h3
  rw [generate_eq_some hne] at h
  obtain rfl := Option.some.inj h
  refine ⟨?_, ?_, by decide⟩
  · intro i j k hij hjk hk
    exact mem_generate_result.mpr (mem_codeCandList.mpr (Or.inr (Or.inr
      (Or.inl (mem_tripleCands.mpr ⟨h3, i, j, k, hij, hjk, hk, rfl⟩)))))
  · intro x hx
    exact (mem_tripleCands.mp hx).2

/-- Witness for C3 at the concrete input `"One Two Three"`. -/
theorem generate_triple_rule_order_witness :
    pget (pyParts (strToCodes "One Two Three")) 0 ++
      pget (pyParts (strToCodes "One Two Three")) 1 ++
      pget (pyParts (strToCodes "One Two Three")) 2 ∈
      [strToCodes "one", strToCodes "onet", strToCodes "onethree",
        strToCodes "onetthree", strToCodes "onetwo", strToCodes "onetwothree",
        strToCodes "othree", strToCodes "three", strToCodes "threeone",
        strToCodes "threetwo", strToCodes "two", strToCodes "twoone",
        strToCodes "twothree"] :=
  (generate_triple_rule_order (strToCodes "One Two Three")
    [strToCodes "one", strToCodes "onet", strToCodes "onethree",
      strToCodes "onetthree", strToCodes "onetwo", strToCodes "onetwothree",
      strToCodes "othree", strToCodes "three", strToCodes "threeone",
      strToCodes "threetwo", strToCodes "two", strToCodes "twoone",
      strToCodes "twothree"]
    (by decide) (by decide)).1 0 1 2 (by decide) (by decide) (by decide)

/-- C9: the concrete scenario `"Dilanka Kaushal Hewage"` yields all thirteen
claimed candidates. -/
theorem generate_dilanka_scenario :
    ∃ l, generate_username_combinations
        (strToCodes "Dilanka Kaushal Hewage") = some l ∧
      strToCodes "dilanka" ∈ l ∧ strToCodes "kaushal" ∈ l ∧
      strToCodes "hewage" ∈ l ∧ strToCodes "dilankakaushal" ∈ l ∧
      strToCodes "kaushaldilanka" ∈ l ∧ strToCodes "dilankahewage" ∈ l ∧
      strToCodes "hewagedilanka" ∈ l ∧ strToCodes "kaushalhewage" ∈ l ∧
      strToCodes "hewagekaushal" ∈ l ∧ strToCodes "dilankakaushalhewage" ∈ l ∧
      strToCodes "dhewage" ∈ l ∧ strToCodes "dilankah" ∈ l ∧
      strToCodes "dilankakhewage" ∈ l := by
  refine ⟨[strToCodes "dhewage", strToCodes "dilanka", strToCodes "dilankah",
    strToCodes "dilankahewage", strToCodes "dilankakaushal",
    strToCodes "dilankakaushalhewage", strToCodes "dilankakhewage",
    strToCodes "hewage", strToCodes "hewagedilanka",
    strToCodes "hewagekaushal", strToCodes "kaushal",
    strToCodes "kaushaldilanka", strToCodes "kaushalhewage"], ?_, ?_⟩
  · decide
  · exact ⟨by decide, by decide, by decide, by decide, by decide, by decide,
      by decide, by decide, by decide, by decide, by decide, by decide,
      by decide⟩

/-- Strings of different lengths differ. -/
theorem ne_of_length_lt {x y : PyStr} (h : x.length < y.length) : x ≠ y := by
  intro he
  rw [he] at h
  omega

/-- Lower bound on the number of distinct candidates: the first part, the
first pair concatenation, the first triple concatenation and the full
concatenation give `min n 4` distinct members. -/
theorem card_codeCandList_lower (parts : List PyStr)
    (hne : ∀ t ∈ parts, t ≠ []) (hp : parts ≠ []) :
    min parts.length 4 ≤
      (codeCandList parts (initialCandsT parts)).toFinset.card := by
  rcases parts with _ | ⟨p0, ptail⟩
  · exact absurd rfl hp
  have h0 : (1 : Nat) ≤ p0.length :=
    List.length_pos.mpr (hne p0 (by simp))
  rcases ptail with _ | ⟨p1, ptail2⟩
  · rw [show min ([p0] : List PyStr).length 4 = 1 from by simp]
    refine Finset.card_pos.mpr ⟨p0, List.mem_toFinset.mpr ?_⟩
    exact mem_codeCandList.mpr (Or.inl (by simp))
  have h1 : (1 : Nat) ≤ p1.length :=
    List.length_pos.mpr (hne p1 (by simp))
  rcases ptail2 with _ | ⟨p2, ptail3⟩
  · have hw1 : p0 ∈ codeCandList [p0, p1] (initialCandsT [p0, p1]) :=
      mem_codeCandList.mpr (Or.inl (by simp))
    have hw2 : p0 ++ p1 ∈ codeCandList [p0, p1] (initialCandsT [p0, p1]) :=
      mem_codeCandList.mpr (Or.inr (Or.inl
        (mem_pairCands.mpr ⟨0, 1, by omega, by simp, Or.inl rfl⟩)))
    have d12 : p0 ≠ p0 ++ p1 :=
      ne_of_length_lt (by rw [List.length_append]; omega)
    have hsub : ({p0, p0 ++ p1} : Finset PyStr) ⊆
        (codeCandList [p0, p1] (initialCandsT [p0, p1])).toFinset := by
      intro x hx
      rw [List.mem_toFinset]
      rcases Finset.mem_insert.mp hx with rfl | hx
      · exact hw1
      · rw [Finset.mem_singleton] at hx
        subst hx
        exact hw2
    have hcard : ({p0, p0 ++ p1} : Finset PyStr).card = 2 := by
      rw [Finset.card_insert_of_not_mem (by rw [Finset.mem_singleton]; exact d12),
        Finset.card_singleton]
    rw [show min ([p0, p1] : List PyStr).length 4 = 2 from by simp, ← hcard]
    exact Finset.card_le_card hsub
  have h2 : (1 : Nat) ≤ p2.length :=
    List.length_pos.mpr (hne p2 (by simp))
  rcases ptail3 with _ | ⟨p3, rest⟩
  · have hw1 : p0 ∈ codeCandList [p0, p1, p2] (initialCandsT [p0, p1, p2]) :=
      mem_codeCandList.mpr (Or.inl (by simp))
    have hw2 : p0 ++ p1 ∈
        codeCandList [p0, p1, p2] (initialCandsT [p0, p1, p2]) :=
      mem_codeCandList.mpr (Or.inr (Or.inl
        (mem_pairCands.mpr ⟨0, 1, by omega, by simp, Or.inl rfl⟩)))
    have hw3 : p0 ++ p1 ++ p2 ∈
        codeCandList [p0, p1, p2] (initialCandsT [p0, p1, p2]) :=
      mem_codeCandList.mpr (Or.inr (Or.inr (Or.inl
        (mem_tripleCands.mpr ⟨by simp, 0, 1, 2, by omega, by omega, by simp,
          rfl⟩))))
    have d12 : p0 ≠ p0 ++ p1 :=
      ne_of_length_lt (by rw [List.length_append]; omega)
    have d13 : p0 ≠ p0 ++ p1 ++ p2 :=
      ne_of_length_lt (by simp only [List.length_append]; omega)
    have d23 : p0 ++ p1 ≠ p0 ++ p1 ++ p2 :=
      ne_of_length_lt (by simp only [List.length_append]; omega)
    have hsub : ({p0, p0 ++ p1, p0 ++ p1 ++ p2} : Finset PyStr) ⊆
        (codeCandList [p0, p1, p2] (initialCandsT [p0, p1, p2])).toFinset := by
      intro x hx
      rw [List.mem_toFinset]
      rcases Finset.mem_insert.mp hx with rfl | hx
      · exact hw1
      rcases Finset.mem_insert.mp hx with rfl | hx
      · exact hw2
      rw [Finset.mem_singleton] at hx
      subst hx
      exact hw3
    have hn1 : p0 ∉ ({p0 ++ p1, p0 ++ p1 ++ p2} : Finset PyStr) := by
      rw [Finset.mem_insert, Finset.mem_singleton]
      rintro (he | he)
      · exact d12 he
      · exact d13 he
    have hn2 : p0 ++ p1 ∉ ({p0 ++ p1 ++ p2} : Finset PyStr) := by
      rw [Finset.mem_singleton]
      exact d23
    have hcard : ({p0, p0 ++ p1, p0 ++ p1 ++ p2} : Finset PyStr).card = 3 := by
      rw [Finset.card_insert_of_not_mem hn1, Finset.card_insert_of_not_mem hn2,
        Finset.card_singleton]
    rw [show min ([p0, p1, p2] : List PyStr).length 4 = 3 from by simp,
      ← hcard]
    exact Finset.card_le_card hsub
  · have h3 : (1 : Nat) ≤ p3.length :=
      List.length_pos.mpr (hne p3 (by simp))
    set parts := p0 :: p1 :: p2 :: p3 :: rest with hparts
    have hw1 : p0 ∈ codeCandList parts (initialCandsT parts) :=
      mem_codeCandList.mpr (Or.inl (by simp [hparts]))
    have hw2 : p0 ++ p1 ∈ codeCandList parts (initialCandsT parts) :=
      mem_codeCandList.mpr (Or.inr (Or.inl
        (mem_pairCands.mpr ⟨0, 1, by omega, by simp [hparts], Or.inl rfl⟩)))
    have hw3 : p0 ++ p1 ++ p2 ∈ codeCandList parts (initialCandsT parts) :=
      mem_codeCandList.mpr (Or.inr (Or.inr (Or.inl
        (mem_tripleCands.mpr ⟨by simp [hparts], 0, 1, 2, by omega, by omega,
          by simp [hparts], rfl⟩))))
    have hw4 : parts.flatten ∈ codeCandList parts (initialCandsT parts) :=
      mem_codeCandList.mpr (Or.inr (Or.inr (Or.inr (Or.inr rfl))))
    have hflat : p0.length + p1.length + p2.length + p3.length ≤
        parts.flatten.length := by
      rw [hparts]
      simp only [List.flatten_cons, List.length_append]
      omega
    have d12 : p0 ≠ p0 ++ p1 :=
      ne_of_length_lt (by rw [List.length_append]; omega)
    have d13 : p0 ≠ p0 ++ p1 ++ p2 :=
      ne_of_length_lt (by simp only [List.length_append]; omega)
    have d14 : p0 ≠ parts.flatten := ne_of_length_lt (by omega)
    have d23 : p0 ++ p1 ≠ p0 ++ p1 ++ p2 :=
      ne_of_length_lt (by simp only [List.length_append]; omega)
    have d24 : p0 ++ p1 ≠ parts.flatten :=
      ne_of_length_lt (by rw [List.length_append]; omega)
    have d34 : p0 ++ p1 ++ p2 ≠ parts.flatten :=
      ne_of_length_lt (by simp only [List.length_append]; omega)
    have hsub : ({p0, p0 ++ p1, p0 ++ p1 ++ p2, parts.flatten} :
        Finset PyStr) ⊆
        (codeCandList parts (initialCandsT parts)).toFinset := by
      intro x hx
      rw [List.mem_toFinset]
      rcases Finset.mem_insert.mp hx with rfl | hx
      · exact hw1
      rcases Finset.mem_insert.mp hx with rfl | hx
      · exact hw2
      rcases Finset.mem_insert.mp hx with rfl | hx
      · exact hw3
      rw [Finset.mem_singleton] at hx
      subst hx
      exact hw4
    have hn1 : p0 ∉ ({p0 ++ p1, p0 ++ p1 ++ p2, parts.flatten} :
        Finset PyStr) := by
      rw [Finset.mem_insert, Finset.mem_insert, Finset.mem_singleton]
      rintro (he | he | he)
      · exact d12 he
      · exact d13 he
      · exact d14 he
    have hn2 : p0 ++ p1 ∉ ({p0 ++ p1 ++ p2, parts.flatten} : Finset PyStr) := by
      rw [Finset.mem_insert, Finset.mem_singleton]
      rintro (he | he)
      · exact d23 he
      · exact d24 he
    have hn3 : p0 ++ p1 ++ p2 ∉ ({parts.flatten} : Finset PyStr) := by
      rw [Finset.mem_singleton]
      exact d34
    have hcard : ({p0, p0 ++ p1, p0 ++ p1 ++ p2, parts.flatten} :
        Finset PyStr).card = 4 := by
      rw [Finset.card_insert_of_not_mem hn1, Finset.card_insert_of_not_mem hn2,
        Finset.card_insert_of_not_mem hn3, Finset.card_singleton]
    have hmin : min parts.length 4 ≤ 4 := min_le_right _ _
    calc min parts.length 4 ≤ 4 := hmin
    _ = ({p0, p0 ++ p1, p0 ++ p1 ++ p2, parts.flatten} :
        Finset PyStr).card := hcard.symm
    _ ≤ _ := Finset.card_le_card hsub

/-- C5 as stated fails: the five-token input `"a a a a a"` yields only four
distinct candidates, below the claimed linear lower bound. -/
theorem generate_count_claim_cex :
    (pyParts (strToCodes "a a a a a")).length = 5 ∧
    generate_username_combinations (strToCodes "a a a a a") =
      some [strToCodes "a", strToCodes "aa", strToCodes "aaa",
        strToCodes "aaaaa"] ∧
    ¬ (5 : Nat) ≤ [strToCodes "a", strToCodes "aa", strToCodes "aaa",
      strToCodes "aaaaa"].length :=
  ⟨by decide, by decide, by decide⟩

/-- C5 (amended): for `n ≥ 1` tokens the number of distinct candidates is at
least `min n 4` and at most `n + n(n-1) + C(n,3) + 4`. -/
theorem generate_count_bounds (s : PyStr) (l : List PyStr)
    (hn : 1 ≤ (pyParts s).length)
    (h : generate_username_combinations s = some l) :
    min (pyParts s).length 4 ≤ l.length ∧
      l.length ≤ (pyParts s).length +
        (pyParts s).length * ((pyParts s).length - 1) +
        Nat.choose (pyParts s).length 3 + 4 := by
  have hp : pyParts s ≠ [] := by
    intro hc
    rw [hc] at hn
    simp at hn
  rw [generate_eq_some hp] at h
  obtain rfl := Option.some.inj h
  rw [length_sortList_dedup]
  constructor
  · exact card_codeCandList_lower _ (fun t ht => mem_pyParts_ne_nil ht) hp
  · exact le_trans (List.toFinset_card_le _) (length_codeCandList_le _)

/-- Witness for the amended C5 at the concrete input `"Ann Bob"`. -/
theorem generate_count_bounds_witness :
    min (pyParts (strToCodes "Ann Bob")).length 4 ≤
      ([strToCodes "abob", strToCodes "ann", strToCodes "annb",
        strToCodes "annbob", strToCodes "bob",
        strToCodes "bobann"] : List PyStr).length ∧
    ([strToCodes "abob", strToCodes "ann", strToCodes "annb",
      strToCodes "annbob", strToCodes "bob",
      strToCodes "bobann"] : List PyStr).length ≤
      (pyParts (strToCodes "Ann Bob")).length +
        (pyParts (strToCodes "Ann Bob")).length *
          ((pyParts (strToCodes "Ann Bob")).length - 1) +
        Nat.choose (pyParts (strToCodes "Ann Bob")).length 3 + 4 :=
  generate_count_bounds (strToCodes "Ann Bob")
    [strToCodes "abob", strToCodes "ann", strToCodes "annb",
      strToCodes "annbob", strToCodes "bob", strToCodes "bobann"]
    (by decide) (by decide)
